import Mathlib

/-!
# Verification of the binius core against its specification

Shallow embedding of the parts of the repository needed by the frozen
claims:

* `crates/math/src/univariate.rs` — evaluation domains, barycentric
  extrapolation, Horner evaluation (`evaluate_univariate`,
  `EvaluationDomain::extrapolate`, `extrapolate_line_scalar`).
* `crates/core/src/composition/index.rs` — `IndexComposition`.
* `crates/core/src/oracle/multivariate.rs` — `CompositePolyOracle`.
* `crates/circuits/src/groestl.rs` — `SBoxConstraint`, round constants.
* `crates/hal/src/sumcheck_round_calculation.rs` — the sumcheck round
  evaluation engine.

The embedding is at scalar granularity: the packed field `P` is taken
with a single lane (`P::LOG_WIDTH = 0`), a case the source itself
handles explicitly (its deinterleave step degenerates to the identity
and every packed buffer holds one scalar per entry).  Field values are
modelled over an arbitrary `Field F`; the binary 8-bit AES field needed
by the Grøstl claims is modelled concretely over `Nat`.
-/

set_option linter.unusedSectionVars false

namespace Binius

/-! ## Univariate polynomials (`crates/math/src/univariate.rs`) -/

section Univariate

variable {F : Type*} [Field F] [DecidableEq F]

/-- `evaluate_univariate` from `univariate.rs`: Horner evaluation over the
reversed coefficient list; the empty list yields `F::ZERO`
(`unwrap_or(F::ZERO)`). -/
def evaluateUnivariate (coeffs : List F) (x : F) : F :=
  coeffs.reverse.tail.foldl (fun eval coeff => eval * x + coeff)
    (coeffs.reverse.headD 0)

/-- `extrapolate_line_scalar` from `univariate.rs`: `x0 + (x1 - x0) * z`. -/
def extrapolateLineScalar (x0 x1 z : F) : F :=
  x0 + (x1 - x0) * z

/-- The product `∏_{j ≠ i} (points[i] - points[j])` computed for index `i`
by `compute_barycentric_weights` in `univariate.rs`. -/
def barWeightProd (points : List F) (i : ℕ) : F :=
  ∏ j ∈ (Finset.range points.length).erase i,
    (points.getD i 0 - points.getD j 0)

/-- `compute_barycentric_weights` from `univariate.rs`: for each `i`, the
product over `j ≠ i` of `points[i] - points[j]`, inverted;
`invert()` returns `None` exactly on `0`, reported as
`DuplicateDomainPoint` (here: `none`). -/
def computeBarycentricWeights (points : List F) : Option (List F) :=
  (List.range points.length).mapM fun i =>
    if barWeightProd points i = 0 then none else some (barWeightProd points i)⁻¹

/-- `EvaluationDomain` from `univariate.rs`. -/
structure EvaluationDomain (F : Type*) [Field F] where
  points : List F
  weights : List F

/-- `EvaluationDomain::from_points`. -/
def EvaluationDomain.fromPoints (points : List F) :
    Option (EvaluationDomain F) :=
  (computeBarycentricWeights points).map fun weights => ⟨points, weights⟩

/-- The running `(eval, terms_partial_prod)` fold of
`EvaluationDomain::extrapolate`, over the list of
`(weighted_value, point)` pairs. -/
def extrapolateFold (x : F) (acc : F × F) (l : List (F × F)) : F × F :=
  l.foldl (fun acc vx =>
    (acc.1 * (x - vx.2) + vx.1 * acc.2, acc.2 * (x - vx.2))) acc

/-- `EvaluationDomain::extrapolate` from `univariate.rs` (scalar
instance, where `mul_by_subfield_scalar` is plain field
multiplication): weight the values, then run the second-form
barycentric accumulation; errors (here `none`) when the number of
values differs from the domain size. -/
def EvaluationDomain.extrapolate (dom : EvaluationDomain F)
    (values : List F) (x : F) : Option F :=
  if values.length ≠ dom.points.length then none
  else
    let weightedValues := (values.zip dom.weights).map fun vw => vw.1 * vw.2
    some (extrapolateFold x (0, 1) (weightedValues.zip dom.points)).1

/-- `∏ (x - points[j])` over a list of `(value, point)` pairs; the final
running product of the `extrapolate` fold. -/
def nodeProd (x : F) (l : List (F × F)) : F :=
  (l.map fun vx => x - vx.2).prod

/-- Closed form of the running evaluation of the `extrapolate` fold:
each weighted value is multiplied by `x - points[j]` for every other
index `j`. -/
def lagSumAux (x : F) : List (F × F) → F
  | [] => 0
  | vx :: l => vx.1 * nodeProd x l + (x - vx.2) * lagSumAux x l

/-- The polynomial with the given monomial coefficient list. -/
noncomputable def polyOfCoeffs (coeffs : List F) : Polynomial F :=
  ∑ i ∈ Finset.range coeffs.length, Polynomial.C (coeffs.getD i 0) *
    Polynomial.X ^ i

end Univariate

/-! ## Composition polynomials and oracles
(`crates/core/src/composition/index.rs`,
`crates/core/src/oracle/multivariate.rs`) -/

section Oracles

variable {F : Type*}

/-- Errors of `crates/core/src/polynomial` used by `IndexComposition`. -/
inductive PolynomialError where
  | IndexCompositionIndicesOutOfBounds
  | MixedMultilinearNotFound
  deriving DecidableEq, Repr

/-- Errors of `binius_math` used by composition evaluation. -/
inductive MathError where
  | IncorrectQuerySize (expected : ℕ)
  deriving DecidableEq, Repr

/-- Errors of `crates/core/src/oracle` used by `CompositePolyOracle`. -/
inductive OracleError where
  | CompositionMismatch
  | IncorrectNumberOfVariables (expected : ℕ)
  deriving DecidableEq, Repr

/-- The `CompositionPoly` capability interface: arity, degree, tower
level and row evaluation (spec §4.C); implementations are opaque behind
this interface. -/
structure CompositionPoly (F : Type*) where
  nVars : ℕ
  degree : ℕ
  binaryTowerLevel : ℕ
  evaluate : List F → Except MathError F

/-- `IndexComposition` from `composition/index.rs`: an adapter
evaluating an inner composition over a larger query by indexing into
it.  The const-generic array `indices: [usize; N]` is modelled as a
list. -/
structure IndexComposition (F : Type*) where
  nVars : ℕ
  indices : List ℕ
  composition : CompositionPoly F

/-- `IndexComposition::new`: fails with
`IndexCompositionIndicesOutOfBounds` when any index is `>= n_vars`. -/
def IndexComposition.new (n_vars : ℕ) (indices : List ℕ)
    (composition : CompositionPoly F) :
    Except PolynomialError (IndexComposition F) :=
  if indices.any fun index => n_vars ≤ index then
    .error .IndexCompositionIndicesOutOfBounds
  else
    .ok ⟨n_vars, indices, composition⟩

/-- `IndexComposition::evaluate`: guards the query size, then gathers
`query[indices[k]]` and delegates to the inner composition. -/
def IndexComposition.evaluate (c : IndexComposition F) (query : List F)
    [Inhabited F] : Except MathError F :=
  if query.length ≠ c.nVars then
    .error (.IncorrectQuerySize c.nVars)
  else
    c.composition.evaluate (c.indices.map fun index => query.getD index default)

/-- The factory `index_composition`: find each subset element in the
superset; fails with `MixedMultilinearNotFound` when one is missing. -/
def indexComposition {E : Type*} [DecidableEq E] (superset subset : List E)
    (composition : CompositionPoly F) :
    Except PolynomialError (IndexComposition F) :=
  let n_vars := superset.length
  let properSubset := subset.all fun subsetItem =>
    superset.any fun supersetItem => supersetItem = subsetItem
  if properSubset then
    .ok ⟨n_vars,
      subset.map fun subsetItem =>
        superset.findIdx fun supersetItem => supersetItem = subsetItem,
      composition⟩
  else
    .error .MixedMultilinearNotFound

/-- Modelled from the spec: a `MultilinearPolyOracle` (defined outside
`src/` in `crates/core/src/oracle`) carries a fixed number of variables
and a fixed binary tower level (spec §3, oracle invariants); only these
two observations are used by `CompositePolyOracle`. -/
structure MultilinearPolyOracle where
  nVars : ℕ
  binaryTowerLevel : ℕ
  deriving DecidableEq, Repr

/-- `CompositePolyOracle` from `oracle/multivariate.rs`. -/
structure CompositePolyOracle (F : Type*) where
  nVars : ℕ
  inner : List MultilinearPolyOracle
  composition : CompositionPoly F

/-- `CompositePolyOracle::new`: checks the composition arity against the
number of inner oracles, then each inner oracle's variable count. -/
def CompositePolyOracle.new (n_vars : ℕ)
    (inner : List MultilinearPolyOracle) (composition : CompositionPoly F) :
    Except OracleError (CompositePolyOracle F) :=
  if inner.length ≠ composition.nVars then
    .error .CompositionMismatch
  else if inner.any fun poly => poly.nVars ≠ n_vars then
    .error (.IncorrectNumberOfVariables n_vars)
  else
    .ok ⟨n_vars, inner, composition⟩

/-- `CompositePolyOracle::binary_tower_level`:
`composition.binary_tower_level().max(inner.iter().map(..).max().unwrap_or(0))`. -/
def CompositePolyOracle.binaryTowerLevel (o : CompositePolyOracle F) : ℕ :=
  max o.composition.binaryTowerLevel
    ((o.inner.map MultilinearPolyOracle.binaryTowerLevel).max?.getD 0)

/-- A rational-valued test composition of arity 3, degree 1, tower
level 3. -/
def c5Comp : CompositionPoly ℚ := ⟨3, 1, 3, fun _ => .ok 0⟩

/-- Inner oracles at tower levels `{1, 3, 5}` over 5 variables. -/
def c5Inner : List MultilinearPolyOracle := [⟨5, 1⟩, ⟨5, 3⟩, ⟨5, 5⟩]

/-- The composite oracle built from `c5Inner` and `c5Comp`. -/
def c5Oracle : CompositePolyOracle ℚ := ⟨5, c5Inner, c5Comp⟩

/-- A test composition of arity 2 projecting its first input. -/
def c8Comp : CompositionPoly ℚ := ⟨2, 1, 0, fun q => .ok (q.getD 0 0)⟩

/-- An index composition over a 3-variable query with indices
`[1, 2]`. -/
def c8Ix : IndexComposition ℚ := ⟨3, [1, 2], c8Comp⟩

end Oracles

/-! ## Grøstl-P round constants (`crates/circuits/src/groestl.rs`) -/

section Groestl

/-- Modelled from the spec: addition in the AES-isomorphic 8-bit binary
field (provided by the external `binius_field` crate) is addition of
`GF(2)^8` coordinate vectors, i.e. bitwise XOR of byte
representations. -/
def aesAdd (a b : ℕ) : ℕ := a ^^^ b

/-- The value of the linear-combination oracle `round_consts[i]` built
by `permutation_round_consts`: `input[8*i] + round + multiples_16[i]`
with coefficients `F::ONE`, where `round` is the transparent constant
`AESTowerField8b::new(round_index as u8)` and `multiples_16[i]` is the
transparent constant `i * 0x10`.  A state column is a map from
hypercube row index to byte value. -/
def permutationRoundConsts (input : ℕ → ℕ → ℕ) (round_index : ℕ)
    (i : ℕ) (z : ℕ) : ℕ :=
  aesAdd (aesAdd (input (8 * i) z) (round_index % 256)) (i * 0x10)

/-- The state read by the S-box layer in `groestl_p_permutation_round`:
column `i` is `round_consts[i / 8]` when `i % 8 == 0` and `input[i]`
otherwise — `AddRoundConstant` touches only the columns `8*i`. -/
def addRoundConstant (input : ℕ → ℕ → ℕ) (round_index : ℕ)
    (c : ℕ) (z : ℕ) : ℕ :=
  if c % 8 = 0 then permutationRoundConsts input round_index (c / 8) z
  else input c z

/-- Modelled from the spec: doubling in the AES-isomorphic 8-bit field
(`binius_field`, external to `src/`), i.e. multiplication by `x` modulo
the Rijndael polynomial `x^8 + x^4 + x^3 + x + 1` (`0x11b`) on byte
representations. -/
def xtime (a : ℕ) : ℕ :=
  if a.testBit 7 then (a <<< 1) ^^^ 0x11b else a <<< 1

/-- Modelled from the spec: multiplication in the AES-isomorphic 8-bit
binary field on byte representations — shift-and-add over the 8 bits of
`b`, reducing by the Rijndael polynomial at each doubling (the loop is
unrolled so that proofs can evaluate it cheaply). -/
def aesMul (a b : ℕ) : ℕ :=
  let a1 := xtime a
  let a2 := xtime a1
  let a3 := xtime a2
  let a4 := xtime a3
  let a5 := xtime a4
  let a6 := xtime a5
  let a7 := xtime a6
  (if b.testBit 0 then a else 0) ^^^
  (if b.testBit 1 then a1 else 0) ^^^
  (if b.testBit 2 then a2 else 0) ^^^
  (if b.testBit 3 then a3 else 0) ^^^
  (if b.testBit 4 then a4 else 0) ^^^
  (if b.testBit 5 then a5 else 0) ^^^
  (if b.testBit 6 then a6 else 0) ^^^
  (if b.testBit 7 then a7 else 0)

/-- Modelled from the spec: `invert_or_zero` in the AES 8-bit field —
the multiplicative inverse for nonzero input and `0` for `0` — given by
its value table; the theorems `aesInv_mul` and `aesMul_eq_one_unique`
below verify against `aesMul` that each entry is the unique inverse. -/
def aesInvTable : List ℕ :=
  [0, 1, 141, 246, 203, 82, 123, 209, 232, 79, 41, 192,
    176, 225, 229, 199, 116, 180, 170, 75, 153, 43, 96, 95,
    88, 63, 253, 204, 255, 64, 238, 178, 58, 110, 90, 241,
    85, 77, 168, 201, 193, 10, 152, 21, 48, 68, 162, 194,
    44, 69, 146, 108, 243, 57, 102, 66, 242, 53, 32, 111,
    119, 187, 89, 25, 29, 254, 55, 103, 45, 49, 245, 105,
    167, 100, 171, 19, 84, 37, 233, 9, 237, 92, 5, 202,
    76, 36, 135, 191, 24, 62, 34, 240, 81, 236, 97, 23,
    22, 94, 175, 211, 73, 166, 54, 67, 244, 71, 145, 223,
    51, 147, 33, 59, 121, 183, 151, 133, 16, 181, 186, 60,
    182, 112, 208, 6, 161, 250, 129, 130, 131, 126, 127, 128,
    150, 115, 190, 86, 155, 158, 149, 217, 247, 2, 185, 164,
    222, 106, 50, 109, 216, 138, 132, 114, 42, 20, 159, 136,
    249, 220, 137, 154, 251, 124, 46, 195, 143, 184, 101, 72,
    38, 200, 18, 74, 206, 231, 210, 98, 12, 224, 31, 239,
    17, 117, 120, 113, 165, 142, 118, 61, 189, 188, 134, 87,
    11, 40, 47, 163, 218, 212, 228, 15, 169, 39, 83, 4,
    27, 252, 172, 230, 122, 7, 174, 99, 197, 219, 226, 234,
    148, 139, 196, 213, 157, 248, 144, 107, 177, 13, 214, 235,
    198, 14, 207, 173, 8, 78, 215, 227, 93, 80, 30, 179,
    91, 35, 56, 52, 104, 70, 3, 140, 221, 156, 125, 160,
    205, 26, 65, 28]

/-- `invert_or_zero` on AES bytes. -/
def aesInv (a : ℕ) : ℕ := aesInvTable.getD a 0

/-- Bounded boolean quantifier used by the exhaustive field checks. -/
def allb (p : ℕ → Bool) (n : ℕ) : Bool :=
  Nat.rec true (fun i acc => acc && p i) n

/-- Per-pair field facts with the product `m = aesMul a b` abstracted
(so reduction evaluates it once): closure of `aesMul`, no zero
divisors, and uniqueness of the multiplicative inverse. -/
def pairCheckAux (m a b : ℕ) : Bool :=
  (m < 256) && (!(m == 0) || (a == 0 || b == 0)) &&
    (!(m == 1) || b == aesInv a)

/-- The per-pair field facts at `(a, b)`. -/
def aesPairCheck (a b : ℕ) : Bool := pairCheckAux (aesMul a b) a b

/-- One stripe of the exhaustive byte-pair check: first operands
`16*k .. 16*k + 15`, all 256 second operands. -/
def aesChkStripe (k : ℕ) : Bool :=
  allb (fun i => allb (fun b => aesPairCheck (16 * k + i) b) 256) 16

/-- Inverse-table correctness: each nonzero byte times its table entry
is `1`, and each entry is a byte. -/
def aesChkInv : Bool :=
  allb (fun a => ((a == 0) || (aesMul a (aesInv a) == 1)) && (aesInv a < 256))
    256

/-- An element of the tower level-4 field `F` in which `SBoxConstraint`
is evaluated, written over its level-3 subfield (the AES 8-bit field):
`(a, b)` stands for `a + b·Y` where `Y` is the primitive tower element
`β₃` adjoined at level 4.  Spec §3: the tower is built by recursive
quadratic extension, so `Y² = α·Y + 1` for a tower constant `α` in the
level-3 subfield; all results below hold for every `α`. -/
def f16Add (u v : ℕ × ℕ) : ℕ × ℕ := (u.1 ^^^ v.1, u.2 ^^^ v.2)

/-- Multiplication in the level-4 tower field with tower constant `α`:
`(a + bY)(c + dY) = (ac + bd) + (ad + bc + bdα)Y` using `Y² = αY + 1`. -/
def f16Mul (α : ℕ) (u v : ℕ × ℕ) : ℕ × ℕ :=
  (aesMul u.1 v.1 ^^^ aesMul u.2 v.2,
    aesMul u.1 v.2 ^^^ aesMul u.2 v.1 ^^^ aesMul (aesMul u.2 v.2) α)

/-- Modelled from the spec: `mul_primitive(3)` multiplies by the third
primitive tower element, i.e. by `Y` (spec §4.A). -/
def mulPrimitive3 (α : ℕ) (v : ℕ × ℕ) : ℕ × ℕ := f16Mul α v (0, 1)

/-- `SBoxConstraint::evaluate` from `groestl.rs` on a scalar query
`[x, inv]` of embedded AES bytes, computed in the level-4 tower field:
`(x·inv - F::ONE) * (x + mul_primitive_3(inv))`.  Subtraction in a
binary field is addition, and `F::ONE` embeds as `(1, 0)`. -/
def sboxEvaluate (α x inv : ℕ) : ℕ × ℕ :=
  f16Mul α
    (f16Add (f16Mul α (x, 0) (inv, 0)) (1, 0))
    (f16Add (x, 0) (mulPrimitive3 α (inv, 0)))

end Groestl

/-! ## Sumcheck round-evaluation engine
(`crates/hal/src/sumcheck_round_calculation.rs`)

Scalar embedding (`P::LOG_WIDTH = 0`, one scalar per packed entry —
the degenerate case the source handles explicitly; all packed buffers
then hold one scalar per slot and `unzip` is the identity).  A sumcheck
multilinear is modelled by its evaluation map on the `n`-variate
hypercube, which covers both the `Transparent` form (with the pending
tensor query already applied) and the `Folded` form
(`prefix`/`suffix_eval`) at value level.  `subcube_vars` (chosen in the
source by `subcube_vars_for_bits`, which lives outside `src/`) is a
parameter constrained only as the spec requires
(`subcube_vars + index_vars = n - 1`). -/

section Sumcheck

variable {F : Type*} [Field F]

/-- The engine error raised by the eval-point length check. -/
inductive HalError where
  | IncorrectNontrivialEvalPointsLength
  deriving DecidableEq, Repr

/-- Modelled from the spec: a `SumcheckEvaluator` (trait object whose
implementations live outside `src/`): it owns a composition — observed
through its scalar row evaluation `comp` and the variable-usage mask of
its expression — an `eval_point_indices` range, a declared
`const_eval_suffix`, and the analytic tail contribution
`process_constant_eval_suffix`. -/
structure SumcheckEvaluator (F : Type*) where
  evalPointStart : ℕ
  evalPointEnd : ℕ
  constEvalSuffix : ℕ
  comp : List F → F
  varsUsage : List Bool
  processConstantEvalSuffix : ℕ → Bool → F

/-- Modelled from the spec: `process_subcube_at_eval_point` sums the
composition over the scalar rows of the subcube (glossary: a round
evaluation is the sum of the composition over the remaining
hypercube). -/
def processSubcubeAtEvalPoint (e : SumcheckEvaluator F)
    (subcube_vars : ℕ) (rows : ℕ → List F) : F :=
  ∑ i ∈ Finset.range (2 ^ subcube_vars), e.comp (rows i)

/-- The union of the evaluators' `eval_point_indices` ranges:
`reduce(|r1, r2| min(starts)..max(ends)).unwrap_or(0..0)`. -/
def evalPointIndicesUnion : List (SumcheckEvaluator F) → ℕ × ℕ
  | [] => (0, 0)
  | e :: es => es.foldl
      (fun r e' => (min r.1 e'.evalPointStart, max r.2 e'.evalPointEnd))
      (e.evalPointStart, e.evalPointEnd)

/-- Rust `usize::div_ceil`. -/
def divCeil (a b : ℕ) : ℕ := (a + b - 1) / b

/-- `subcube_count_by_evaluator`:
`((1 << (n_vars - 1)) - evaluator.const_eval_suffix()).div_ceil(1 << subcube_vars)`. -/
def subcubeCountOfEvaluator (n_vars subcube_vars : ℕ)
    (e : SumcheckEvaluator F) : ℕ :=
  divCeil (2 ^ (n_vars - 1) - e.constEvalSuffix) (2 ^ subcube_vars)

/-- `subcube_count_by_multilinear`: the max of the subcube counts of the
evaluators whose variable-usage mask includes the multilinear. -/
def subcubeCountsByMultilinear (n_vars subcube_vars : ℕ)
    (evaluators : List (SumcheckEvaluator F)) (n_multilinears : ℕ) :
    List ℕ :=
  (List.range n_multilinears).map fun m =>
    evaluators.foldl
      (fun acc e => if e.varsUsage.getD m false then
        max acc (subcubeCountOfEvaluator n_vars subcube_vars e) else acc)
      0

/-- The scalar of `evals_0` at in-subcube position `i`:
`LowToHighAccess` reads a `subcube_vars + 1`-variate subcube (values at
0 and 1 of the lowest variable interleaved at stride 1) and
deinterleaves; `HighToLowAccess` reads the `subcube_vars`-variate
subcube at `subcube_index`, the highest variable fixed to 0. -/
def accessEvals0 (lowToHigh : Bool) (n_vars subcube_vars : ℕ)
    (f : ℕ → F) (subcube_index i : ℕ) : F :=
  if lowToHigh then f (2 * (subcube_index * 2 ^ subcube_vars + i))
  else f (subcube_index * 2 ^ subcube_vars + i)

/-- The scalar of `evals_1` at position `i`: the current variable
(lowest resp. highest) fixed to 1; for `HighToLowAccess` this is the
read at `subcube_index | 1 << index_vars`. -/
def accessEvals1 (lowToHigh : Bool) (n_vars subcube_vars : ℕ)
    (f : ℕ → F) (subcube_index i : ℕ) : F :=
  if lowToHigh then f (2 * (subcube_index * 2 ^ subcube_vars + i) + 1)
  else f (subcube_index * 2 ^ subcube_vars + i + 2 ^ (n_vars - 1))

/-- The `evals_0` buffer of a multilinear inside `ParFoldStates`: filled
by `subcube_evaluations` while `subcube_index < subcube_count`, and
otherwise left at its zeroed initial state (`zeroed_vec`). -/
def evalsBuf0 (lowToHigh : Bool) (n_vars subcube_vars : ℕ) (f : ℕ → F)
    (count subcube_index i : ℕ) : F :=
  if subcube_index < count then
    accessEvals0 lowToHigh n_vars subcube_vars f subcube_index i
  else 0

/-- The `evals_1` buffer, analogously. -/
def evalsBuf1 (lowToHigh : Bool) (n_vars subcube_vars : ℕ) (f : ℕ → F)
    (count subcube_index i : ℕ) : F :=
  if subcube_index < count then
    accessEvals1 lowToHigh n_vars subcube_vars f subcube_index i
  else 0

/-- The point schedule applied to one scalar slot (the `match` on
`eval_point_index` in `calculate_round_evals_with_access`): index 0 uses
`evals_0`, index 1 uses `evals_1`, index 2 (infinity) the difference
`evals_1 - evals_0`, index ≥ 3 the linear extrapolation at
`nontrivial_evaluation_points[index - 3]` (the packed
`extrapolate_lines` of the source computes exactly
`extrapolate_line`). -/
def evalsZ (pts : List F) (eval_point_index : ℕ) (e0 e1 : F) : F :=
  match eval_point_index with
  | 0 => e0
  | 1 => e1
  | 2 => e1 - e0
  | q + 3 => extrapolateLineScalar e0 e1 (pts.getD q 0)

/-- The `evals_z` row batch handed to the evaluators for one scalar
position `i` of subcube `k` at point `p`: one entry per multilinear; a
multilinear whose subcube count is exhausted contributes its (zeroed)
`evals_0` buffer, per the source's first match arm. -/
def evalsZRow (lowToHigh : Bool) (n_vars subcube_vars : ℕ) (pts : List F)
    (multilinears : List (ℕ → F)) (counts : List ℕ) (p k i : ℕ) :
    List F :=
  (List.range multilinears.length).map fun m =>
    let f := multilinears.getD m fun _ => 0
    let cnt := counts.getD m 0
    let e0 := evalsBuf0 lowToHigh n_vars subcube_vars f cnt k i
    let e1 := evalsBuf1 lowToHigh n_vars subcube_vars f cnt k i
    if cnt ≤ k then e0 else evalsZ pts p e0 e1

/-- The parallel-fold accumulation for one evaluator at one eval point:
the sum over all outer subcube indices (the reducer is plain field
addition, so the fold partitioning is immaterial), gated by the
evaluator's subcube count and its eval-point range membership handled by
the caller. -/
def roundEvalAccum (lowToHigh : Bool) (n_vars subcube_vars : ℕ)
    (multilinears : List (ℕ → F)) (evaluators : List (SumcheckEvaluator F))
    (pts : List F) (e : SumcheckEvaluator F) (p : ℕ) : F :=
  ∑ k ∈ Finset.range (2 ^ (n_vars - 1 - subcube_vars)),
    if k < subcubeCountOfEvaluator n_vars subcube_vars e then
      processSubcubeAtEvalPoint e subcube_vars fun i =>
        evalsZRow lowToHigh n_vars subcube_vars pts multilinears
          (subcubeCountsByMultilinear n_vars subcube_vars evaluators
            multilinears.length) p k i
    else 0

/-- The constant-eval-suffix size the final reduction passes to
`process_constant_eval_suffix`:
`(1 << n_vars) - (subcube_count << subcube_vars)`. -/
def constEvalSuffixPassed (n_vars subcube_vars : ℕ)
    (e : SumcheckEvaluator F) : ℕ :=
  2 ^ n_vars - subcubeCountOfEvaluator n_vars subcube_vars e *
    2 ^ subcube_vars

/-- The final `RoundEvals` vector of one evaluator: entry `j` holds the
evaluation at point `evalPointStart + j`, plus the analytic tail
contribution; the `izip` of the final reduction pairs entry `j` with the
*union* range, so the infinity flag tests `unionStart + j == 2`. -/
def roundEvalsOfEvaluator (lowToHigh : Bool) (n_vars subcube_vars : ℕ)
    (multilinears : List (ℕ → F)) (evaluators : List (SumcheckEvaluator F))
    (pts : List F) (unionStart : ℕ) (e : SumcheckEvaluator F) : List F :=
  (List.range (e.evalPointEnd - e.evalPointStart)).map fun j =>
    roundEvalAccum lowToHigh n_vars subcube_vars multilinears evaluators
      pts e (e.evalPointStart + j) +
    e.processConstantEvalSuffix
      (constEvalSuffixPassed n_vars subcube_vars e)
      (unionStart + j == 2)

/-- `calculate_round_evals_with_access`: checks
`nontrivial_evaluation_points.len() == eval_point_indices.end.saturating_sub(3)`
(reported as `IncorrectNontrivialEvalPointsLength`), then folds the
subcubes and reduces.  The buffer-length guards of the access methods
hold by construction in this embedding (buffers are sized from
`subcube_vars`), and `LowToHighAccess` scratch space is always allocated
by `ParFoldStates::new`, so no other error is reachable. -/
def calculateRoundEvalsWithAccess (lowToHigh : Bool)
    (n_vars subcube_vars : ℕ) (multilinears : List (ℕ → F))
    (evaluators : List (SumcheckEvaluator F))
    (nontrivial_evaluation_points : List F) :
    Except HalError (List (List F)) :=
  if nontrivial_evaluation_points.length ≠
      (evalPointIndicesUnion evaluators).2 - 3 then
    .error .IncorrectNontrivialEvalPointsLength
  else
    .ok (evaluators.map fun e =>
      roundEvalsOfEvaluator lowToHigh n_vars subcube_vars multilinears
        evaluators nontrivial_evaluation_points
        (evalPointIndicesUnion evaluators).1 e)

/-- Concrete multilinear `f(0) = 0, f(1) = 1` over `GF(2)`. -/
def c2M1 : ℕ → ZMod 2 := fun t => if t = 0 then 0 else 1

/-- Concrete multilinear `f(0) = 1, f(1) = 0` over `GF(2)`. -/
def c2M2 : ℕ → ZMod 2 := fun t => if t = 0 then 1 else 0

/-- A degree-2 evaluator: the product composition over two multilinears,
scheduled on points `0..3`, with no constant suffix. -/
def c2Evaluator : SumcheckEvaluator (ZMod 2) where
  evalPointStart := 0
  evalPointEnd := 3
  constEvalSuffix := 0
  comp := fun q => q.getD 0 0 * q.getD 1 0
  varsUsage := [true, true]
  processConstantEvalSuffix := fun _ _ => 0

instance : Fact (Nat.Prime 5) := ⟨by norm_num⟩

/-- A linear evaluator: the composition projects the first query
coordinate (additive on equal-length rows) and the analytic tail
contribution vanishes. -/
def c2LinEvaluator : SumcheckEvaluator (ZMod 2) where
  evalPointStart := 0
  evalPointEnd := 3
  constEvalSuffix := 0
  comp := fun q => q.getD 0 0
  varsUsage := [true]
  processConstantEvalSuffix := fun _ _ => 0

/-- An evaluator with declared `const_eval_suffix() = 0` whose analytic
tail contribution reports the suffix size it receives. -/
def c3Evaluator : SumcheckEvaluator (ZMod 2) where
  evalPointStart := 0
  evalPointEnd := 3
  constEvalSuffix := 0
  comp := fun _ => 0
  varsUsage := []
  processConstantEvalSuffix := fun s _ => (s : ZMod 2)

end Sumcheck

end Binius

namespace Binius

/-! ## Theorems -/

section UnivariateTheorems

variable {F : Type*} [Field F]

theorem evaluateUnivariate_nil (x : F) : evaluateUnivariate [] x = 0 := rfl

theorem evaluateUnivariate_append (cs : List F) (c x : F) :
    evaluateUnivariate (cs ++ [c]) x =
      cs.reverse.foldl (fun eval coeff => eval * x + coeff) c := by
  simp [evaluateUnivariate]

theorem evaluateUnivariate_cons (a : F) (cs : List F) (x : F) :
    evaluateUnivariate (a :: cs) x = a + x * evaluateUnivariate cs x := by
  induction cs using List.reverseRecOn with
  | nil => simp [evaluateUnivariate]
  | append_singleton ds d _ =>
      have h1 : a :: (ds ++ [d]) = (a :: ds) ++ [d] := by simp
      rw [h1, evaluateUnivariate_append, evaluateUnivariate_append]
      simp only [List.reverse_cons, List.foldl_append, List.foldl_cons,
        List.foldl_nil]
      ring

/-- C10 helper: `evaluate_univariate` computes the monomial sum. -/
theorem evaluateUnivariate_eq_sum (coeffs : List F) (x : F) :
    evaluateUnivariate coeffs x =
      ∑ i ∈ Finset.range coeffs.length, coeffs.getD i 0 * x ^ i := by
  induction coeffs with
  | nil => simp [evaluateUnivariate_nil]
  | cons a cs ih =>
      rw [evaluateUnivariate_cons, ih]
      rw [List.length_cons, Finset.sum_range_succ']
      simp only [List.getD_cons_succ, List.getD_cons_zero, pow_zero, mul_one,
        pow_succ, Finset.mul_sum]
      rw [add_comm]
      congr 1
      exact Finset.sum_congr rfl fun i _ => by ring

/-- **C10**: `evaluate_univariate(coeffs, x)` equals the Horner evaluation
of the polynomial with the given monomial coefficients at `x` — i.e. the
monomial sum `∑ i, coeffs[i] * x^i` — for every coefficient list and
every `x`; in particular, for the empty coefficient list it returns the
field's zero element for every `x`. -/
theorem evaluate_univariate_horner (coeffs : List F) (x : F) :
    evaluateUnivariate coeffs x =
      ∑ i ∈ Finset.range coeffs.length, coeffs.getD i 0 * x ^ i ∧
    evaluateUnivariate ([] : List F) x = 0 :=
  ⟨evaluateUnivariate_eq_sum coeffs x, rfl⟩

end UnivariateTheorems

section BarycentricTheorems

variable {F : Type*} [Field F] [DecidableEq F]

theorem mapM_option_eq_map {α β : Type*} (f : α → Option β) (g : α → β)
    (l : List α) (h : ∀ a ∈ l, f a = some (g a)) :
    l.mapM f = some (l.map g) := by
  induction l with
  | nil => rfl
  | cons a l ih =>
      rw [List.mapM_cons, h a (by simp), ih fun b hb => h b (by simp [hb])]
      rfl

theorem extrapolateFold_closed (x : F) (l : List (F × F)) :
    ∀ e p : F, extrapolateFold x (e, p) l =
      (e * nodeProd x l + p * lagSumAux x l, p * nodeProd x l) := by
  induction l with
  | nil => intro e p; simp [extrapolateFold, nodeProd, lagSumAux]
  | cons vx l ih =>
      intro e p
      have h := ih (e * (x - vx.2) + vx.1 * p) (p * (x - vx.2))
      simp only [extrapolateFold, List.foldl_cons] at h ⊢
      rw [h]
      refine Prod.ext ?_ ?_ <;> simp [nodeProd, lagSumAux] <;> ring

theorem nodeProd_eq (x : F) (q : List (F × F)) :
    nodeProd x q =
      ∏ j ∈ Finset.range q.length, (x - (q.getD j (0, 0)).2) := by
  induction q with
  | nil => simp [nodeProd]
  | cons a q ih =>
      rw [List.length_cons, Finset.prod_range_succ']
      simp only [List.getD_cons_succ, List.getD_cons_zero]
      rw [← ih]
      simp [nodeProd]
      ring

theorem erase_range_zero (n : ℕ) :
    (Finset.range (n + 1)).erase 0 = (Finset.range n).image (· + 1) := by
  ext j
  simp only [Finset.mem_erase, Finset.mem_range, Finset.mem_image]
  constructor
  · rintro ⟨hne, hlt⟩
    cases j with
    | zero => exact absurd rfl hne
    | succ k => exact ⟨k, by omega, rfl⟩
  · rintro ⟨a, hlt, rfl⟩
    exact ⟨by omega, by omega⟩

theorem erase_range_succ (n i : ℕ) :
    (Finset.range (n + 1)).erase (i + 1) =
      insert 0 (((Finset.range n).erase i).image (· + 1)) := by
  ext j
  simp only [Finset.mem_erase, Finset.mem_range, Finset.mem_insert,
    Finset.mem_image]
  constructor
  · rintro ⟨hne, hlt⟩
    cases j with
    | zero => exact Or.inl rfl
    | succ k =>
        refine Or.inr ⟨k, ⟨fun h => hne (by omega), by omega⟩, rfl⟩
  · rintro (rfl | ⟨a, ⟨hne, hlt⟩, rfl⟩)
    · exact ⟨by omega, by omega⟩
    · exact ⟨by omega, by omega⟩

theorem lagSumAux_eq (x : F) (q : List (F × F)) :
    lagSumAux x q = ∑ i ∈ Finset.range q.length,
      (q.getD i (0, 0)).1 * ∏ j ∈ (Finset.range q.length).erase i,
        (x - (q.getD j (0, 0)).2) := by
  induction q with
  | nil => simp [lagSumAux]
  | cons a q ih =>
      rw [List.length_cons, Finset.sum_range_succ']
      have hzero :
          ((a :: q).getD 0 ((0 : F), (0 : F))).1 *
            ∏ j ∈ (Finset.range (q.length + 1)).erase 0,
              (x - ((a :: q).getD j (0, 0)).2) = a.1 * nodeProd x q := by
        rw [erase_range_zero, Finset.prod_image fun p _ r _ h => by omega]
        simp only [List.getD_cons_succ, List.getD_cons_zero]
        rw [nodeProd_eq]
      have hsucc : ∀ i ∈ Finset.range q.length,
          ((a :: q).getD (i + 1) ((0 : F), (0 : F))).1 *
            ∏ j ∈ (Finset.range (q.length + 1)).erase (i + 1),
              (x - ((a :: q).getD j (0, 0)).2) =
          (x - a.2) * ((q.getD i (0, 0)).1 *
            ∏ j ∈ (Finset.range q.length).erase i,
              (x - (q.getD j (0, 0)).2)) := by
        intro i _
        rw [erase_range_succ, Finset.prod_insert (by simp),
          Finset.prod_image fun p _ r _ h => by omega]
        simp only [List.getD_cons_succ, List.getD_cons_zero]
        ring
      rw [Finset.sum_congr rfl hsucc, hzero, ← Finset.mul_sum, ← ih]
      simp only [lagSumAux]
      ring

theorem barWeightProd_ne_zero (points : List F) (hnd : points.Nodup)
    (i : ℕ) (hi : i < points.length) : barWeightProd points i ≠ 0 := by
  rw [barWeightProd]
  rw [Finset.prod_ne_zero_iff]
  intro j hj
  obtain ⟨hne, hjr⟩ := Finset.mem_erase.mp hj
  rw [Finset.mem_range] at hjr
  rw [sub_ne_zero]
  rw [List.getD_eq_getElem _ _ hi, List.getD_eq_getElem _ _ hjr]
  intro h
  exact hne ((List.Nodup.getElem_inj_iff hnd).mp h.symm)

theorem computeBarycentricWeights_of_nodup (points : List F)
    (hnd : points.Nodup) :
    computeBarycentricWeights points =
      some ((List.range points.length).map
        fun i => (barWeightProd points i)⁻¹) := by
  rw [computeBarycentricWeights]
  refine mapM_option_eq_map _ _ _ fun i hi => ?_
  rw [List.mem_range] at hi
  rw [if_neg (barWeightProd_ne_zero points hnd i hi)]

theorem eval_polyOfCoeffs (coeffs : List F) (x : F) :
    (polyOfCoeffs coeffs).eval x = evaluateUnivariate coeffs x := by
  rw [evaluateUnivariate_eq_sum]
  simp [polyOfCoeffs, Polynomial.eval_finset_sum]

theorem degree_polyOfCoeffs_lt (coeffs : List F) :
    (polyOfCoeffs coeffs).degree < (coeffs.length : WithBot ℕ) := by
  refine lt_of_le_of_lt (Polynomial.degree_sum_le _ _) ?_
  rw [Finset.sup_lt_iff (WithBot.bot_lt_coe _)]
  intro i hi
  refine lt_of_le_of_lt (Polynomial.degree_C_mul_X_pow_le _ _) ?_
  exact_mod_cast Finset.mem_range.mp hi

theorem eval_lagrange_basis (s : Finset ℕ) (v : ℕ → F) (i : ℕ) (z : F) :
    (Lagrange.basis s v i).eval z =
      (∏ j ∈ s.erase i, (v i - v j))⁻¹ * ∏ j ∈ s.erase i, (z - v j) := by
  rw [Lagrange.basis, Polynomial.eval_prod, ← Finset.prod_inv_distrib,
    ← Finset.prod_mul_distrib]
  refine Finset.prod_congr rfl fun j _ => ?_
  simp [Lagrange.basisDivisor]

/-- **C6**: for every polynomial of degree at most `d` given by its
coefficient list, and every evaluation domain of `d + 1` distinct points
(more generally, of at least `coeffs.length` distinct points),
evaluating the polynomial on the domain points and calling
`EvaluationDomain::extrapolate` on those values at any point `z` returns
the field element `evaluate_univariate(coeffs, z)`. -/
theorem extrapolate_round_trip (points coeffs : List F)
    (dom : EvaluationDomain F) (z : F) (hnd : points.Nodup)
    (hlen : coeffs.length ≤ points.length)
    (hdom : EvaluationDomain.fromPoints points = some dom) :
    dom.extrapolate (points.map (evaluateUnivariate coeffs)) z =
      some (evaluateUnivariate coeffs z) := by
  set n := points.length with hn
  -- Unpack the successfully constructed domain.
  rw [EvaluationDomain.fromPoints,
    computeBarycentricWeights_of_nodup points hnd, Option.map_some'] at hdom
  obtain rfl : EvaluationDomain.mk points
      ((List.range n).map fun i => (barWeightProd points i)⁻¹) = dom :=
    Option.some_injective _ hdom
  set wlist : List F := (List.range n).map fun i => (barWeightProd points i)⁻¹
    with hw
  set values : List F := points.map (evaluateUnivariate coeffs) with hv
  set q : List (F × F) :=
    ((values.zip wlist).map fun vw => vw.1 * vw.2).zip points with hq
  have hqlen : q.length = n := by simp [hq, hv, hw]
  -- The length guard passes and the fold materializes.
  have hextr : EvaluationDomain.extrapolate ⟨points, wlist⟩ values z =
      some (extrapolateFold z (0, 1) q).1 := by
    rw [EvaluationDomain.extrapolate, if_neg (by simp [hv])]
  rw [hextr]
  have hfold : (extrapolateFold z (0, 1) q).1 = lagSumAux z q := by
    rw [extrapolateFold_closed]
    ring
  -- Entries of `q`.
  have hval : ∀ i, i < n → q.getD i (0, 0) =
      (evaluateUnivariate coeffs (points.getD i 0) *
        (barWeightProd points i)⁻¹, points.getD i 0) := by
    intro i hi
    have h1 : i < q.length := hqlen ▸ hi
    rw [List.getD_eq_getElem _ _ h1]
    have h2 : i < ((values.zip wlist).map
        fun vw : F × F => vw.1 * vw.2).length := by simp [hv, hw]; omega
    have h3 : i < (values.zip wlist).length := by simp [hv, hw]; omega
    simp only [hq, List.getElem_zip, List.getElem_map]
    have h4 : i < values.length := by simp [hv]; omega
    have h5 : i < wlist.length := by simp [hw]; omega
    refine Prod.ext ?_ ?_
    · show values[i] * wlist[i] = _
      simp only [hv, hw, List.getElem_map, List.getElem_range]
      rw [List.getD_eq_getElem _ _ hi]
    · show points[i] = _
      rw [List.getD_eq_getElem _ _ hi]
  -- Lagrange interpolation over `Finset.range n`.
  set v : ℕ → F := fun i => points.getD i 0 with hvdef
  have hvs : Set.InjOn v (Finset.range n) := by
    intro a ha b hb hab
    rw [Finset.coe_range, Set.mem_Iio] at ha hb
    rw [hvdef] at hab
    simp only [List.getD_eq_getElem _ _ ha, List.getD_eq_getElem _ _ hb] at hab
    exact (List.Nodup.getElem_inj_iff hnd).mp hab
  have hdeg : (polyOfCoeffs coeffs).degree < (Finset.range n).card := by
    rw [Finset.card_range]
    refine lt_of_lt_of_le (degree_polyOfCoeffs_lt coeffs) ?_
    exact_mod_cast hlen
  have hinterp := Lagrange.eq_interpolate (f := polyOfCoeffs coeffs) hvs hdeg
  have heval := congrArg (Polynomial.eval z) hinterp
  rw [Lagrange.interpolate_apply, Polynomial.eval_finset_sum] at heval
  -- Identify the fold result with the evaluated interpolation polynomial.
  rw [hfold, lagSumAux_eq, hqlen]
  rw [eval_polyOfCoeffs] at heval
  rw [heval]
  congr 1
  refine Finset.sum_congr rfl fun i hi => ?_
  rw [Finset.mem_range] at hi
  rw [Polynomial.eval_mul, Polynomial.eval_C, eval_lagrange_basis,
    eval_polyOfCoeffs]
  rw [hval i hi]
  have hprod : ∀ j ∈ (Finset.range n).erase i,
      z - (q.getD j (0, 0)).2 = z - v j := by
    intro j hj
    rw [hval j (Finset.mem_range.mp (Finset.mem_erase.mp hj).2)]
  rw [Finset.prod_congr rfl hprod]
  have hbw : ∏ j ∈ (Finset.range n).erase i, (v i - v j) =
      barWeightProd points i := by
    rw [barWeightProd]
  rw [hbw]
  ring

end BarycentricTheorems

section OracleTheorems

variable {F : Type*}

/-- **C8**: `IndexComposition::new` fails with
`IndexCompositionIndicesOutOfBounds` iff some index is `>= n_vars`; the
factory `index_composition` fails with `MixedMultilinearNotFound` iff
some subset element does not occur in the superset; and
`IndexComposition::evaluate` returns `IncorrectQuerySize { expected: n_vars }`
whenever the query length differs from `n_vars`, and otherwise delegates
to the inner composition on the gathered subquery. -/
theorem index_composition_errors {E : Type*} [DecidableEq E] [Inhabited F]
    (n_vars : ℕ) (indices : List ℕ) (composition : CompositionPoly F)
    (superset subset : List E) (c : IndexComposition F) (query : List F) :
    (IndexComposition.new n_vars indices composition =
        .error .IndexCompositionIndicesOutOfBounds ↔
      ∃ i ∈ indices, n_vars ≤ i) ∧
    (indexComposition superset subset composition =
        .error .MixedMultilinearNotFound ↔
      ∃ s ∈ subset, s ∉ superset) ∧
    (query.length ≠ c.nVars →
      c.evaluate query = .error (.IncorrectQuerySize c.nVars)) ∧
    (query.length = c.nVars →
      c.evaluate query = c.composition.evaluate
        (c.indices.map fun index => query.getD index default)) := by
  refine ⟨?_, ?_, ?_, ?_⟩
  · rw [IndexComposition.new]
    by_cases h : indices.any fun index => n_vars ≤ index
    · simp only [if_pos h]
      simp only [List.any_eq_true, decide_eq_true_eq] at h
      simpa using h
    · simp only [if_neg h]
      simp only [List.any_eq_true, decide_eq_true_eq] at h
      simpa using h
  · rw [indexComposition]
    by_cases h : subset.all fun subsetItem =>
        superset.any fun supersetItem => supersetItem = subsetItem
    · rw [if_pos h]
      simp only [List.all_eq_true, List.any_eq_true, decide_eq_true_eq] at h
      constructor
      · intro hcontr
        cases hcontr
      · rintro ⟨s, hs, hnot⟩
        obtain ⟨t, ht, rfl⟩ := h s hs
        exact absurd ht hnot
    · rw [if_neg h]
      simp only [List.all_eq_true, List.any_eq_true, decide_eq_true_eq] at h
      push_neg at h
      obtain ⟨s, hs, hnone⟩ := h
      simp only [true_iff]
      exact ⟨s, hs, fun hmem => hnone s hmem rfl⟩
  · intro h
    rw [IndexComposition.evaluate, if_pos h]
  · intro h
    rw [IndexComposition.evaluate, if_neg (by simp [h])]

theorem max_getD_spec (l : List ℕ) :
    (∀ x ∈ l, x ≤ l.max?.getD 0) ∧
      (l.max?.getD 0 = 0 ∨ l.max?.getD 0 ∈ l) := by
  have hbridge := List.getD_max?_eq_unbot'_maximum l 0
  rcases hmax : l.maximum with _ | b
  · have hnil : l = [] := List.maximum_eq_none.mp hmax
    subst hnil
    simp
  · rw [hmax] at hbridge
    have hb : l.max?.getD 0 = b := by rw [hbridge]; rfl
    rw [hb]
    constructor
    · intro x hx
      have hle := List.le_maximum_of_mem' hx
      rw [hmax] at hle
      exact WithBot.coe_le_coe.mp hle
    · exact Or.inr (List.maximum_mem hmax)

/-- **C5**: for every `CompositePolyOracle` successfully constructed,
`binary_tower_level()` is the maximum of the composition's tower level
and the tower levels of the inner oracles: it dominates all of them and
is attained by one of them. -/
theorem composite_binary_tower_level (n_vars : ℕ)
    (inner : List MultilinearPolyOracle) (composition : CompositionPoly F)
    (o : CompositePolyOracle F)
    (hok : CompositePolyOracle.new n_vars inner composition = .ok o) :
    composition.binaryTowerLevel ≤ o.binaryTowerLevel ∧
    (∀ m ∈ inner, m.binaryTowerLevel ≤ o.binaryTowerLevel) ∧
    (o.binaryTowerLevel = composition.binaryTowerLevel ∨
      ∃ m ∈ inner, o.binaryTowerLevel = m.binaryTowerLevel) := by
  rw [CompositePolyOracle.new] at hok
  by_cases h1 : inner.length ≠ composition.nVars
  · rw [if_pos h1] at hok; cases hok
  rw [if_neg h1] at hok
  by_cases h2 : inner.any fun poly => poly.nVars ≠ n_vars
  · rw [if_pos h2] at hok; cases hok
  rw [if_neg h2] at hok
  obtain rfl : CompositePolyOracle.mk n_vars inner composition = o := by
    cases hok; rfl
  obtain ⟨hub, hattain⟩ :=
    max_getD_spec (inner.map MultilinearPolyOracle.binaryTowerLevel)
  set M := (inner.map MultilinearPolyOracle.binaryTowerLevel).max?.getD 0
    with hM
  have hbtl : (CompositePolyOracle.mk (F := F) n_vars inner
      composition).binaryTowerLevel = max composition.binaryTowerLevel M :=
    rfl
  rw [hbtl]
  refine ⟨le_max_left _ _, fun m hm => ?_, ?_⟩
  · exact le_trans (hub _ (List.mem_map_of_mem _ hm)) (le_max_right _ _)
  · rcases max_cases composition.binaryTowerLevel M with ⟨heq, _⟩ |
        ⟨heq, hlt⟩
    · exact Or.inl heq
    · rcases hattain with hzero | hmem
      · omega
      · obtain ⟨m, hm, hmb⟩ := List.mem_map.mp hmem
        exact Or.inr ⟨m, hm, by omega⟩

end OracleTheorems

section GroestlTheorems

/-- **C9**: in the Grøstl-P arithmetization, for every hypercube row `z`,
the round-constant oracle for state column `8*i` at round `r` holds
`input[8*i] + r + i*0x10` (AES-field addition); no other column is
modified by `AddRoundConstant`; and concretely at round 3 for `i = 5`
the output equals the input value plus `0x53`. -/
theorem groestl_round_consts (input : ℕ → ℕ → ℕ) (r i c z : ℕ)
    (hr : r < 256) (hi : i < 8) (hc : c % 8 ≠ 0) :
    addRoundConstant input r (8 * i) z =
      aesAdd (input (8 * i) z) (aesAdd r (i * 0x10)) ∧
    addRoundConstant input r c z = input c z ∧
    addRoundConstant input 3 40 z = aesAdd (input 40 z) 0x53 := by
  refine ⟨?_, ?_, ?_⟩
  · rw [addRoundConstant, if_pos (by omega)]
    have h8 : 8 * i / 8 = i := by omega
    rw [permutationRoundConsts, h8, Nat.mod_eq_of_lt hr]
    simp [aesAdd, Nat.xor_assoc]
  · rw [addRoundConstant, if_neg hc]
  · rw [addRoundConstant, if_pos (by norm_num)]
    rw [permutationRoundConsts]
    norm_num
    simp only [aesAdd, Nat.xor_assoc,
      show (3 : ℕ) ^^^ 80 = 83 from by decide]

end GroestlTheorems

section AESTheorems

set_option maxRecDepth 100000 in
set_option maxHeartbeats 20000000 in
theorem aesStripe0_true : aesChkStripe 0 = true := rfl

set_option maxRecDepth 100000 in
set_option maxHeartbeats 20000000 in
theorem aesStripe1_true : aesChkStripe 1 = true := rfl

set_option maxRecDepth 100000 in
set_option maxHeartbeats 20000000 in
theorem aesStripe2_true : aesChkStripe 2 = true := rfl

set_option maxRecDepth 100000 in
set_option maxHeartbeats 20000000 in
theorem aesStripe3_true : aesChkStripe 3 = true := rfl

set_option maxRecDepth 100000 in
set_option maxHeartbeats 20000000 in
theorem aesStripe4_true : aesChkStripe 4 = true := rfl

set_option maxRecDepth 100000 in
set_option maxHeartbeats 20000000 in
theorem aesStripe5_true : aesChkStripe 5 = true := rfl

set_option maxRecDepth 100000 in
set_option maxHeartbeats 20000000 in
theorem aesStripe6_true : aesChkStripe 6 = true := rfl

set_option maxRecDepth 100000 in
set_option maxHeartbeats 20000000 in
theorem aesStripe7_true : aesChkStripe 7 = true := rfl

set_option maxRecDepth 100000 in
set_option maxHeartbeats 20000000 in
theorem aesStripe8_true : aesChkStripe 8 = true := rfl

set_option maxRecDepth 100000 in
set_option maxHeartbeats 20000000 in
theorem aesStripe9_true : aesChkStripe 9 = true := rfl

set_option maxRecDepth 100000 in
set_option maxHeartbeats 20000000 in
theorem aesStripe10_true : aesChkStripe 10 = true := rfl

set_option maxRecDepth 100000 in
set_option maxHeartbeats 20000000 in
theorem aesStripe11_true : aesChkStripe 11 = true := rfl

set_option maxRecDepth 100000 in
set_option maxHeartbeats 20000000 in
theorem aesStripe12_true : aesChkStripe 12 = true := rfl

set_option maxRecDepth 100000 in
set_option maxHeartbeats 20000000 in
theorem aesStripe13_true : aesChkStripe 13 = true := rfl

set_option maxRecDepth 100000 in
set_option maxHeartbeats 20000000 in
theorem aesStripe14_true : aesChkStripe 14 = true := rfl

set_option maxRecDepth 100000 in
set_option maxHeartbeats 20000000 in
theorem aesStripe15_true : aesChkStripe 15 = true := rfl

set_option maxRecDepth 100000 in
set_option maxHeartbeats 20000000 in
theorem aesChkInv_true : aesChkInv = true := rfl

theorem allb_spec (p : ℕ → Bool) :
    ∀ n, allb p n = true → ∀ i, i < n → p i = true := by
  intro n
  induction n with
  | zero => intro _ i hi; omega
  | succ n ih =>
      intro h i hi
      have hstep : allb p (n + 1) = (allb p n && p n) := rfl
      rw [hstep, Bool.and_eq_true] at h
      rcases Nat.lt_succ_iff_lt_or_eq.mp hi with h' | rfl
      · exact ih h.1 i h'
      · exact h.2

theorem aesChkStripe_true (q : ℕ) (hq : q < 16) :
    aesChkStripe q = true := by
  interval_cases q
  · exact aesStripe0_true
  · exact aesStripe1_true
  · exact aesStripe2_true
  · exact aesStripe3_true
  · exact aesStripe4_true
  · exact aesStripe5_true
  · exact aesStripe6_true
  · exact aesStripe7_true
  · exact aesStripe8_true
  · exact aesStripe9_true
  · exact aesStripe10_true
  · exact aesStripe11_true
  · exact aesStripe12_true
  · exact aesStripe13_true
  · exact aesStripe14_true
  · exact aesStripe15_true

theorem aesMul_facts (a b : ℕ) (ha : a < 256) (hb : b < 256) :
    aesMul a b < 256 ∧ (aesMul a b = 0 → a = 0 ∨ b = 0) ∧
      (aesMul a b = 1 → b = aesInv a) := by
  have h1 := allb_spec _ 16 (aesChkStripe_true (a / 16) (by omega))
    (a % 16) (by omega)
  have h2 := allb_spec _ 256 h1 b hb
  have hsplit : 16 * (a / 16) + a % 16 = a := Nat.div_add_mod a 16
  rw [hsplit] at h2
  rw [aesPairCheck, pairCheckAux] at h2
  simp only [Bool.and_eq_true, Bool.or_eq_true, Bool.not_eq_true',
    beq_iff_eq, beq_eq_false_iff_ne, decide_eq_true_eq] at h2
  refine ⟨h2.1.1, fun h0 => ?_, fun h1' => ?_⟩
  · rcases h2.1.2 with hne | hor
    · exact absurd h0 hne
    · exact hor
  · rcases h2.2 with hne | heq
    · exact absurd h1' hne
    · exact heq

theorem aesInv_mul (a : ℕ) (ha : a < 256) :
    (a ≠ 0 → aesMul a (aesInv a) = 1) ∧ aesInv a < 256 := by
  have h := allb_spec _ 256 aesChkInv_true a ha
  simp only [Bool.and_eq_true, Bool.or_eq_true, beq_iff_eq,
    decide_eq_true_eq] at h
  exact ⟨fun h0 => h.1.resolve_left h0, h.2⟩

theorem aesMul_eq_one_unique (a b : ℕ) (ha : a < 256) (hb : b < 256)
    (h : aesMul a b = 1) : b = aesInv a :=
  (aesMul_facts a b ha hb).2.2 h

theorem aesMul_zero_left (b : ℕ) : aesMul 0 b = 0 := by
  have hx : xtime 0 = 0 := by simp [xtime]
  simp [aesMul, hx]

theorem aesMul_zero_right (a : ℕ) : aesMul a 0 = 0 := by
  simp [aesMul]

theorem aesMul_one_right (a : ℕ) : aesMul a 1 = a := by
  have h0 : Nat.testBit 1 0 = true := rfl
  have hk : ∀ k, Nat.testBit 1 (k + 1) = false := fun k => by
    simp [Nat.testBit_succ]
  simp [aesMul, h0, hk]

/-- The S-box composition evaluates, in terms of the level-3 subfield,
to `((x·inv + 1)·x, (x·inv + 1)·inv)`. -/
theorem sboxEvaluate_eq (α x inv : ℕ) :
    sboxEvaluate α x inv =
      (aesMul (aesMul x inv ^^^ 1) x, aesMul (aesMul x inv ^^^ 1) inv) := by
  simp [sboxEvaluate, f16Mul, f16Add, mulPrimitive3, aesMul_zero_left,
    aesMul_zero_right, aesMul_one_right]

/-- **C1**: for every `x` in the AES 8-bit field with
`inv = invert_or_zero(x)`, `SBoxConstraint.evaluate([x, inv])` is zero;
and for every `x ≠ 0` and `inv ≠ x⁻¹` it is nonzero.  The evaluated
expression is `(x·inv - 1) * (x + mul_primitive_3(inv))`, computed in
any tower field of level ≥ 4 (the result is independent of the tower
constant `α`). -/
theorem sbox_constraint (α x inv : ℕ) (hx : x < 256) (hinv : inv < 256) :
    (inv = aesInv x → sboxEvaluate α x inv = (0, 0)) ∧
    (x ≠ 0 → inv ≠ aesInv x → sboxEvaluate α x inv ≠ (0, 0)) := by
  obtain ⟨hclo, hnzd, huniq⟩ := aesMul_facts x inv hx hinv
  constructor
  · rintro rfl
    by_cases hx0 : x = 0
    · subst hx0
      rw [sboxEvaluate_eq, show aesInv 0 = 0 from rfl]
      simp [aesMul_zero_right]
    · have hone := (aesInv_mul x hx).1 hx0
      rw [sboxEvaluate_eq, hone]
      simp [Nat.xor_self, aesMul_zero_left]
  · intro hx0 hne heq
    rw [sboxEvaluate_eq, Prod.mk.injEq] at heq
    obtain ⟨h1, _⟩ := heq
    have hc : aesMul x inv ^^^ 1 < 256 :=
      Nat.xor_lt_two_pow (n := 8) hclo (by norm_num)
    obtain ⟨_, hnzd2, _⟩ := aesMul_facts (aesMul x inv ^^^ 1) x hc hx
    rcases hnzd2 h1 with hczero | hxzero
    · exact hne (huniq (Nat.xor_eq_zero.mp hczero))
    · exact hx0 hxzero

end AESTheorems

section SumcheckTheorems

variable {F : Type*} [Field F]

theorem unionFold_snd_spec (es : List (SumcheckEvaluator F)) :
    ∀ acc : ℕ × ℕ,
      acc.2 ≤ (es.foldl (fun r e' => (min r.1 e'.evalPointStart,
          max r.2 e'.evalPointEnd)) acc).2 ∧
      (∀ e ∈ es, e.evalPointEnd ≤ (es.foldl (fun r e' =>
          (min r.1 e'.evalPointStart, max r.2 e'.evalPointEnd)) acc).2) ∧
      ((es.foldl (fun r e' => (min r.1 e'.evalPointStart,
          max r.2 e'.evalPointEnd)) acc).2 = acc.2 ∨
        ∃ e ∈ es, (es.foldl (fun r e' => (min r.1 e'.evalPointStart,
          max r.2 e'.evalPointEnd)) acc).2 = e.evalPointEnd) := by
  induction es with
  | nil => intro acc; exact ⟨le_refl _, by simp, Or.inl rfl⟩
  | cons e es ih =>
      intro acc
      obtain ⟨h1, h2, h3⟩ := ih (min acc.1 e.evalPointStart,
        max acc.2 e.evalPointEnd)
      refine ⟨le_trans (le_max_left _ _) h1, ?_, ?_⟩
      · intro e' he'
        rcases List.mem_cons.mp he' with rfl | hmem
        · exact le_trans (le_max_right _ _) h1
        · exact h2 e' hmem
      · rcases h3 with heq | ⟨e', he', heq⟩
        · rcases max_choice acc.2 e.evalPointEnd with hm | hm
          · exact Or.inl (by rw [List.foldl_cons]; omega)
          · exact Or.inr ⟨e, List.mem_cons_self _ _, by
              rw [List.foldl_cons]; omega⟩
        · exact Or.inr ⟨e', List.mem_cons_of_mem _ he', by
            rw [List.foldl_cons]; omega⟩

theorem unionFold_fst_le (es : List (SumcheckEvaluator F)) :
    ∀ acc : ℕ × ℕ,
      (es.foldl (fun r e' => (min r.1 e'.evalPointStart,
          max r.2 e'.evalPointEnd)) acc).1 ≤ acc.1 ∧
      (∀ e ∈ es, (es.foldl (fun r e' => (min r.1 e'.evalPointStart,
          max r.2 e'.evalPointEnd)) acc).1 ≤ e.evalPointStart) := by
  induction es with
  | nil => intro acc; exact ⟨le_refl _, by simp⟩
  | cons e es ih =>
      intro acc
      obtain ⟨h1, h2⟩ := ih (min acc.1 e.evalPointStart,
        max acc.2 e.evalPointEnd)
      refine ⟨le_trans h1 (min_le_left _ _), ?_⟩
      intro e' he'
      rcases List.mem_cons.mp he' with rfl | hmem
      · exact le_trans h1 (min_le_right _ _)
      · exact h2 e' hmem

theorem unionStart_le (evaluators : List (SumcheckEvaluator F))
    (e : SumcheckEvaluator F) (he : e ∈ evaluators) :
    (evalPointIndicesUnion evaluators).1 ≤ e.evalPointStart := by
  cases evaluators with
  | nil => cases he
  | cons e0 es =>
      obtain ⟨h1, h2⟩ := unionFold_fst_le es (e0.evalPointStart,
        e0.evalPointEnd)
      rcases List.mem_cons.mp he with rfl | hmem
      · exact h1
      · exact h2 e hmem

theorem unionEnd_spec (evaluators : List (SumcheckEvaluator F)) :
    (∀ e ∈ evaluators,
      e.evalPointEnd ≤ (evalPointIndicesUnion evaluators).2) ∧
    ((evalPointIndicesUnion evaluators).2 = 0 ∨ ∃ e ∈ evaluators,
      (evalPointIndicesUnion evaluators).2 = e.evalPointEnd) := by
  cases evaluators with
  | nil => exact ⟨by simp, Or.inl rfl⟩
  | cons e0 es =>
      obtain ⟨h1, h2, h3⟩ := unionFold_snd_spec es (e0.evalPointStart,
        e0.evalPointEnd)
      refine ⟨?_, ?_⟩
      · intro e he
        rcases List.mem_cons.mp he with rfl | hmem
        · exact h1
        · exact h2 e hmem
      · rcases h3 with heq | ⟨e, he, heq⟩
        · exact Or.inr ⟨e0, List.mem_cons_self _ _, heq⟩
        · exact Or.inr ⟨e, List.mem_cons_of_mem _ he, heq⟩

/-- **C7**: `calculate_round_evals` fails with
`IncorrectNontrivialEvalPointsLength` exactly when the number of
nontrivial evaluation points differs from the maximum of the
evaluators' `eval_point_indices.end`, minus 3 (`saturating_sub`, i.e.
truncated ℕ subtraction); otherwise it succeeds.  The second and third
conjuncts identify `(evalPointIndicesUnion evaluators).2` as that
maximum (an upper bound that is attained, or `0` with no evaluators). -/
theorem nontrivial_eval_points_length_check (lowToHigh : Bool)
    (n_vars subcube_vars : ℕ) (multilinears : List (ℕ → F))
    (evaluators : List (SumcheckEvaluator F)) (pts : List F) :
    (calculateRoundEvalsWithAccess lowToHigh n_vars subcube_vars
        multilinears evaluators pts =
        .error .IncorrectNontrivialEvalPointsLength ↔
      pts.length ≠ (evalPointIndicesUnion evaluators).2 - 3) ∧
    (∀ e ∈ evaluators,
      e.evalPointEnd ≤ (evalPointIndicesUnion evaluators).2) ∧
    ((evalPointIndicesUnion evaluators).2 = 0 ∨ ∃ e ∈ evaluators,
      (evalPointIndicesUnion evaluators).2 = e.evalPointEnd) := by
  refine ⟨?_, (unionEnd_spec evaluators).1, (unionEnd_spec evaluators).2⟩
  rw [calculateRoundEvalsWithAccess]
  by_cases h : pts.length ≠ (evalPointIndicesUnion evaluators).2 - 3
  · rw [if_pos h]
    exact ⟨fun _ => h, fun _ => rfl⟩
  · rw [if_neg h]
    exact ⟨fun hcontr => Except.noConfusion hcontr, fun hc => absurd hc h⟩

/-- Inversion of a successful engine run: the result is one
`RoundEvals` row per evaluator, as produced by
`roundEvalsOfEvaluator`. -/
theorem calculateRoundEvals_ok (lowToHigh : Bool)
    (n_vars subcube_vars : ℕ) (multilinears : List (ℕ → F))
    (evaluators : List (SumcheckEvaluator F)) (pts : List F)
    (l : List (List F))
    (h : calculateRoundEvalsWithAccess lowToHigh n_vars subcube_vars
      multilinears evaluators pts = .ok l) :
    l = evaluators.map (roundEvalsOfEvaluator lowToHigh n_vars
      subcube_vars multilinears evaluators pts
      (evalPointIndicesUnion evaluators).1) := by
  rw [calculateRoundEvalsWithAccess] at h
  by_cases hg : pts.length ≠ (evalPointIndicesUnion evaluators).2 - 3
  · rw [if_pos hg] at h; cases h
  · rw [if_neg hg] at h
    cases h
    rfl

/-- **C4**: for every subcube processed in a round (`k` below its
subcube count for the `m`-th multilinear), the engine materializes the
`evals_z` entry per the point schedule: index 0 uses `evals_0`
unchanged, index 1 uses `evals_1` unchanged, index 2 the difference
`evals_1 - evals_0`, and index ≥ 3 the linear extrapolation
`eval_0 + (eval_1 - eval_0) * z` with
`z = nontrivial_evaluation_points[index - 3]`. -/
theorem sumcheck_point_schedule (lowToHigh : Bool)
    (n_vars subcube_vars : ℕ) (pts : List F)
    (multilinears : List (ℕ → F)) (counts : List ℕ) (p k i m : ℕ)
    (hm : m < multilinears.length) (hk : k < counts.getD m 0) :
    (evalsZRow lowToHigh n_vars subcube_vars pts multilinears counts
        p k i).getD m 0 =
      (if p = 0 then accessEvals0 lowToHigh n_vars subcube_vars
        (multilinears.getD m fun _ => 0) k i
      else if p = 1 then accessEvals1 lowToHigh n_vars subcube_vars
        (multilinears.getD m fun _ => 0) k i
      else if p = 2 then
        accessEvals1 lowToHigh n_vars subcube_vars
          (multilinears.getD m fun _ => 0) k i -
        accessEvals0 lowToHigh n_vars subcube_vars
          (multilinears.getD m fun _ => 0) k i
      else extrapolateLineScalar
        (accessEvals0 lowToHigh n_vars subcube_vars
          (multilinears.getD m fun _ => 0) k i)
        (accessEvals1 lowToHigh n_vars subcube_vars
          (multilinears.getD m fun _ => 0) k i)
        (pts.getD (p - 3) 0)) := by
  have hmlen : m < ((List.range multilinears.length).map fun m =>
      let f := multilinears.getD m fun _ => 0
      let cnt := counts.getD m 0
      let e0 := evalsBuf0 lowToHigh n_vars subcube_vars f cnt k i
      let e1 := evalsBuf1 lowToHigh n_vars subcube_vars f cnt k i
      if cnt ≤ k then e0 else evalsZ pts p e0 e1).length := by
    simpa using hm
  rw [evalsZRow, List.getD_eq_getElem _ _ hmlen, List.getElem_map,
    List.getElem_range]
  simp only
  rw [if_neg (by omega)]
  rw [evalsBuf0, if_pos hk, evalsBuf1, if_pos hk]
  match p with
  | 0 => rfl
  | 1 => rfl
  | 2 => rfl
  | q + 3 =>
      rw [if_neg (by omega), if_neg (by omega), if_neg (by omega)]
      have hq : q + 3 - 3 = q := by omega
      rw [hq]
      rfl

/-- **C3 (counterexample)**: the claim "the suffix size passed to
`process_constant_eval_suffix` equals the evaluator's declared
`const_eval_suffix()`" fails at `n_vars = 1`, `subcube_vars = 0`, for an
evaluator declaring suffix `0`: the engine passes
`(1 << n_vars) - (subcube_count << subcube_vars) = 1`, and its round
evaluations show the tail contribution was computed at suffix `1`. -/
theorem const_suffix_passed_counterexample :
    constEvalSuffixPassed 1 0 c3Evaluator ≠ c3Evaluator.constEvalSuffix ∧
    calculateRoundEvalsWithAccess true 1 0 ([] : List (ℕ → ZMod 2))
      [c3Evaluator] [] = .ok [[1, 1, 1]] := by
  constructor
  · decide
  · rfl

/-- **C3 (amended)**: the suffix size the engine passes to
`process_constant_eval_suffix` is
`(1 << n_vars) - (subcube_count << subcube_vars)`; whenever the declared
suffix fits in the half hypercube and the subtraction is exact
(`2^subcube_vars` divides it), this equals
`2^(n_vars-1) + const_eval_suffix()` — the declared suffix plus half the
hypercube, not the declared suffix itself. -/
theorem const_suffix_passed (n_vars subcube_vars : ℕ)
    (e : SumcheckEvaluator F)
    (hs : e.constEvalSuffix ≤ 2 ^ (n_vars - 1))
    (hdvd : 2 ^ subcube_vars ∣ 2 ^ (n_vars - 1) - e.constEvalSuffix)
    (hn : 1 ≤ n_vars) :
    constEvalSuffixPassed n_vars subcube_vars e =
      2 ^ (n_vars - 1) + e.constEvalSuffix ∧
    ∀ (lowToHigh : Bool) (multilinears : List (ℕ → F))
      (evaluators : List (SumcheckEvaluator F)) (pts : List F) (us : ℕ),
      roundEvalsOfEvaluator lowToHigh n_vars subcube_vars multilinears
        evaluators pts us e =
      (List.range (e.evalPointEnd - e.evalPointStart)).map fun j =>
        roundEvalAccum lowToHigh n_vars subcube_vars multilinears
          evaluators pts e (e.evalPointStart + j) +
        e.processConstantEvalSuffix
          (2 ^ (n_vars - 1) + e.constEvalSuffix) (us + j == 2) := by
  obtain ⟨q, hq⟩ := hdvd
  have hb : 0 < 2 ^ subcube_vars := pow_pos (by norm_num) subcube_vars
  have hcount : subcubeCountOfEvaluator n_vars subcube_vars e = q := by
    rw [subcubeCountOfEvaluator, divCeil, hq]
    have h1 : 2 ^ subcube_vars * q + 2 ^ subcube_vars - 1 =
        2 ^ subcube_vars * q + (2 ^ subcube_vars - 1) := by omega
    rw [h1, Nat.mul_add_div hb, Nat.div_eq_of_lt (by omega)]
    omega
  have h2 : 2 ^ n_vars = 2 * 2 ^ (n_vars - 1) := by
    rw [← pow_succ']
    congr 1
    omega
  have h3 : q * 2 ^ subcube_vars = 2 ^ (n_vars - 1) - e.constEvalSuffix := by
    rw [mul_comm, ← hq]
  have hmain : constEvalSuffixPassed n_vars subcube_vars e =
      2 ^ (n_vars - 1) + e.constEvalSuffix := by
    rw [constEvalSuffixPassed, hcount, h3]
    omega
  refine ⟨hmain, fun lowToHigh multilinears evaluators pts us => ?_⟩
  rw [roundEvalsOfEvaluator]
  simp only [hmain]

theorem evalsZRow_length (lowToHigh : Bool) (n_vars subcube_vars : ℕ)
    (pts : List F) (multilinears : List (ℕ → F)) (counts : List ℕ)
    (p k i : ℕ) :
    (evalsZRow lowToHigh n_vars subcube_vars pts multilinears counts
      p k i).length = multilinears.length := by
  simp [evalsZRow]

theorem evalsZRow_two (lowToHigh : Bool) (n_vars subcube_vars : ℕ)
    (pts : List F) (multilinears : List (ℕ → F)) (counts : List ℕ)
    (k i : ℕ) :
    evalsZRow lowToHigh n_vars subcube_vars pts multilinears counts
        2 k i =
      List.zipWith (· - ·)
        (evalsZRow lowToHigh n_vars subcube_vars pts multilinears counts
          1 k i)
        (evalsZRow lowToHigh n_vars subcube_vars pts multilinears counts
          0 k i) := by
  apply List.ext_getElem
  · simp [evalsZRow]
  · intro t h1 h2
    simp only [evalsZRow, List.getElem_zipWith, List.getElem_map,
      List.getElem_range]
    by_cases hc : counts.getD t 0 ≤ k
    · have hz : evalsBuf0 lowToHigh n_vars subcube_vars
          (multilinears.getD t fun _ => 0) (counts.getD t 0) k i = 0 := by
        rw [evalsBuf0, if_neg (by omega)]
      rw [if_pos hc, if_pos hc, if_pos hc, hz]
      simp
    · rw [if_neg hc, if_neg hc, if_neg hc]
      rfl

theorem processSubcube_sub (e : SumcheckEvaluator F) (subcube_vars : ℕ)
    (rows1 rows0 : ℕ → List F)
    (hadd : ∀ u v : List F, u.length = v.length →
      e.comp (List.zipWith (· - ·) u v) = e.comp u - e.comp v)
    (hlen : ∀ i, (rows1 i).length = (rows0 i).length) :
    processSubcubeAtEvalPoint e subcube_vars
        (fun i => List.zipWith (· - ·) (rows1 i) (rows0 i)) =
      processSubcubeAtEvalPoint e subcube_vars rows1 -
        processSubcubeAtEvalPoint e subcube_vars rows0 := by
  rw [processSubcubeAtEvalPoint, processSubcubeAtEvalPoint,
    processSubcubeAtEvalPoint, ← Finset.sum_sub_distrib]
  exact Finset.sum_congr rfl fun i _ => hadd _ _ (hlen i)

theorem roundEvalAccum_two (lowToHigh : Bool) (n_vars subcube_vars : ℕ)
    (multilinears : List (ℕ → F)) (evaluators : List (SumcheckEvaluator F))
    (pts : List F) (e : SumcheckEvaluator F)
    (hadd : ∀ u v : List F, u.length = v.length →
      e.comp (List.zipWith (· - ·) u v) = e.comp u - e.comp v) :
    roundEvalAccum lowToHigh n_vars subcube_vars multilinears evaluators
        pts e 2 =
      roundEvalAccum lowToHigh n_vars subcube_vars multilinears
        evaluators pts e 1 -
      roundEvalAccum lowToHigh n_vars subcube_vars multilinears
        evaluators pts e 0 := by
  rw [roundEvalAccum, roundEvalAccum, roundEvalAccum,
    ← Finset.sum_sub_distrib]
  refine Finset.sum_congr rfl fun k _ => ?_
  by_cases hk : k < subcubeCountOfEvaluator n_vars subcube_vars e
  · rw [if_pos hk, if_pos hk, if_pos hk]
    rw [← processSubcube_sub e subcube_vars _ _ hadd
      (fun i => by rw [evalsZRow_length, evalsZRow_length])]
    congr 1
    funext i
    exact evalsZRow_two lowToHigh n_vars subcube_vars pts multilinears _
      k i
  · rw [if_neg hk, if_neg hk, if_neg hk]
    simp

theorem roundEvalsOfEvaluator_getD (lowToHigh : Bool)
    (n_vars subcube_vars : ℕ) (multilinears : List (ℕ → F))
    (evaluators : List (SumcheckEvaluator F)) (pts : List F) (us : ℕ)
    (e : SumcheckEvaluator F) (t : ℕ)
    (ht : t < e.evalPointEnd - e.evalPointStart) :
    (roundEvalsOfEvaluator lowToHigh n_vars subcube_vars multilinears
        evaluators pts us e).getD t 0 =
      roundEvalAccum lowToHigh n_vars subcube_vars multilinears
        evaluators pts e (e.evalPointStart + t) +
      e.processConstantEvalSuffix
        (constEvalSuffixPassed n_vars subcube_vars e) (us + t == 2) := by
  rw [roundEvalsOfEvaluator]
  rw [List.getD_eq_getElem _ _ (by simpa using ht), List.getElem_map,
    List.getElem_range]

/-- **C2 (counterexample)**: with the degree-2 product composition over
two multilinears on one variable, the engine's round evaluations are
`(0, 0, 1)` at indices `(0, 1, 2)` over `GF(2)`: the infinity-index
evaluation is `1`, but `round_eval_at_1 - round_eval_at_0 = 0` — the
claimed identity does not hold for every composition. -/
theorem sumcheck_infinity_counterexample :
    calculateRoundEvalsWithAccess true 1 0 [c2M1, c2M2] [c2Evaluator]
      ([] : List (ZMod 2)) = .ok [[0, 0, 1]] ∧
    (1 : ZMod 2) ≠ 0 - 0 := by
  constructor
  · rfl
  · decide

/-- **C2 (amended)**: for every successful engine run and every
evaluator whose eval-point range starts at 0 and contains the three
special indices, whose composition is additive on equal-length rows
(`C(u - v) = C(u) - C(v)`, i.e. a linear composition), and whose
constant-suffix contribution vanishes at the infinity point, the round
evaluation at index 2 equals the one at index 1 minus the one at
index 0. -/
theorem sumcheck_infinity_identity (lowToHigh : Bool)
    (n_vars subcube_vars : ℕ) (multilinears : List (ℕ → F))
    (evaluators : List (SumcheckEvaluator F)) (pts : List F)
    (l : List (List F)) (j : ℕ) (e : SumcheckEvaluator F)
    (hok : calculateRoundEvalsWithAccess lowToHigh n_vars subcube_vars
      multilinears evaluators pts = .ok l)
    (he : evaluators[j]? = some e)
    (hstart : e.evalPointStart = 0) (hend : 3 ≤ e.evalPointEnd)
    (hadd : ∀ u v : List F, u.length = v.length →
      e.comp (List.zipWith (· - ·) u v) = e.comp u - e.comp v)
    (hpcs : ∀ s : ℕ, e.processConstantEvalSuffix s true = 0) :
    (l.getD j []).getD 2 0 =
      (l.getD j []).getD 1 0 - (l.getD j []).getD 0 0 := by
  have hl := calculateRoundEvals_ok lowToHigh n_vars subcube_vars
    multilinears evaluators pts l hok
  obtain ⟨hj, hje⟩ := List.getElem?_eq_some_iff.mp he
  have hmem : e ∈ evaluators := hje ▸ List.getElem_mem hj
  have hus : (evalPointIndicesUnion evaluators).1 = 0 := by
    have h := unionStart_le evaluators e hmem
    omega
  have hrow : l.getD j [] = roundEvalsOfEvaluator lowToHigh n_vars
      subcube_vars multilinears evaluators pts
      (evalPointIndicesUnion evaluators).1 e := by
    rw [hl, List.getD_eq_getElem _ _ (by simpa using hj),
      List.getElem_map, hje]
  rw [hrow]
  rw [roundEvalsOfEvaluator_getD _ _ _ _ _ _ _ _ 2 (by omega),
    roundEvalsOfEvaluator_getD _ _ _ _ _ _ _ _ 1 (by omega),
    roundEvalsOfEvaluator_getD _ _ _ _ _ _ _ _ 0 (by omega)]
  rw [hstart, hus]
  have hf2 : ((0 + 2 : ℕ) == 2) = true := rfl
  have hf1 : ((0 + 1 : ℕ) == 2) = false := rfl
  have hf0 : ((0 + 0 : ℕ) == 2) = false := rfl
  rw [hf2, hf1, hf0, hpcs]
  have hacc := roundEvalAccum_two lowToHigh n_vars subcube_vars
    multilinears evaluators pts e hadd
  have h02 : (0 + 2 : ℕ) = 2 := rfl
  have h01 : (0 + 1 : ℕ) = 1 := rfl
  have h00 : (0 + 0 : ℕ) = 0 := rfl
  rw [h02, h01, h00, hacc]
  ring

end SumcheckTheorems

/-! ## Concrete witnesses -/

section Witnesses

/-- C1 witness: `x = 0x53` with its AES inverse satisfies the S-box
constraint. -/
theorem sbox_constraint_witness :
    (0x53 : ℕ) < 256 ∧ aesInv 0x53 < 256 ∧
    sboxEvaluate 0 0x53 (aesInv 0x53) = (0, 0) :=
  ⟨by norm_num, by decide,
    (sbox_constraint 0 0x53 (aesInv 0x53) (by norm_num) (by decide)).1 rfl⟩

/-- C2 witness: for the linear (projection) composition the
infinity-index round evaluation is the difference of the evaluations at
1 and 0. -/
theorem sumcheck_infinity_identity_witness :
    calculateRoundEvalsWithAccess true 1 0 [c2M1] [c2LinEvaluator]
      ([] : List (ZMod 2)) = .ok [[0, 1, 1]] ∧
    (([[0, 1, 1]] : List (List (ZMod 2))).getD 0 []).getD 2 0 =
      (([[0, 1, 1]] : List (List (ZMod 2))).getD 0 []).getD 1 0 -
      (([[0, 1, 1]] : List (List (ZMod 2))).getD 0 []).getD 0 0 := by
  refine ⟨rfl, ?_⟩
  refine sumcheck_infinity_identity true 1 0 [c2M1] [c2LinEvaluator] []
    [[0, 1, 1]] 0 c2LinEvaluator rfl rfl rfl (by decide) ?_
    (fun _ => rfl)
  intro u v hlen
  cases u with
  | nil =>
      cases v with
      | nil => simp [c2LinEvaluator]
      | cons b v => simp at hlen
  | cons a u =>
      cases v with
      | nil => simp at hlen
      | cons b v => rfl

/-- C3 witness: at `n_vars = 1`, `subcube_vars = 0` and declared suffix
0, the engine passes `2^0 + 0 = 1`. -/
theorem const_suffix_passed_witness :
    constEvalSuffixPassed 1 0 c3Evaluator =
      2 ^ 0 + c3Evaluator.constEvalSuffix :=
  (const_suffix_passed 1 0 c3Evaluator (by norm_num [c3Evaluator])
    (by norm_num [c3Evaluator]) (by norm_num)).1

/-- C4 witness: the infinity entry of a materialized row is the
difference of the 1- and 0-restrictions. -/
theorem sumcheck_point_schedule_witness :
    (evalsZRow true 1 0 ([] : List (ZMod 2)) [c2M1] [1] 2 0 0).getD 0 0 =
      accessEvals1 true 1 0 c2M1 0 0 - accessEvals0 true 1 0 c2M1 0 0 := by
  have h := sumcheck_point_schedule (F := ZMod 2) true 1 0 [] [c2M1] [1]
    2 0 0 0 (by norm_num) (by decide)
  simpa using h

/-- C5 witness: inner tower levels `{1, 3, 5}` with a level-3
composition give a composite oracle at level 5. -/
theorem composite_binary_tower_level_witness :
    CompositePolyOracle.new 5 c5Inner c5Comp = .ok c5Oracle ∧
    c5Oracle.binaryTowerLevel = 5 ∧
    (c5Comp.binaryTowerLevel ≤ c5Oracle.binaryTowerLevel ∧
      (∀ m ∈ c5Inner, m.binaryTowerLevel ≤ c5Oracle.binaryTowerLevel) ∧
      (c5Oracle.binaryTowerLevel = c5Comp.binaryTowerLevel ∨
        ∃ m ∈ c5Inner, c5Oracle.binaryTowerLevel = m.binaryTowerLevel)) :=
  ⟨rfl, rfl, composite_binary_tower_level 5 c5Inner c5Comp c5Oracle rfl⟩

/-- C6 witness: domain `{0, 1, 2}` over `GF(5)`, polynomial
`1 + x + x²`, extrapolated at `x = 4`. -/
theorem extrapolate_round_trip_witness :
    ([0, 1, 2] : List (ZMod 5)).Nodup ∧
    EvaluationDomain.extrapolate
        (EvaluationDomain.mk ([0, 1, 2] : List (ZMod 5))
          ((List.range 3).map fun i =>
            (barWeightProd ([0, 1, 2] : List (ZMod 5)) i)⁻¹))
        (([0, 1, 2] : List (ZMod 5)).map (evaluateUnivariate [1, 1, 1]))
        4 =
      some (evaluateUnivariate [1, 1, 1] 4) := by
  have hnd : ([0, 1, 2] : List (ZMod 5)).Nodup := by decide
  refine ⟨hnd, ?_⟩
  refine extrapolate_round_trip _ _ _ _ hnd (by norm_num) ?_
  rw [EvaluationDomain.fromPoints,
    computeBarycentricWeights_of_nodup _ hnd]
  rfl

/-- C7 witness: one nontrivial point with no evaluators (maximum end 0)
triggers the length error. -/
theorem nontrivial_eval_points_length_check_witness :
    calculateRoundEvalsWithAccess true 1 0 ([] : List (ℕ → ZMod 2)) []
      [1] = .error .IncorrectNontrivialEvalPointsLength :=
  (nontrivial_eval_points_length_check true 1 0 [] [] [1]).1.mpr
    (by decide)

/-- C8 witness: a concrete out-of-bounds index, a missing subset
element, a delegated evaluation, and a mis-sized query. -/
theorem index_composition_errors_witness :
    IndexComposition.new 3 [1, 2, 5] c8Comp =
      .error .IndexCompositionIndicesOutOfBounds ∧
    indexComposition [0, 1] [2] c8Comp =
      .error .MixedMultilinearNotFound ∧
    c8Ix.evaluate [1, 2, 3] = c8Comp.evaluate [2, 3] ∧
    c8Ix.evaluate [1] = .error (.IncorrectQuerySize 3) := by
  refine ⟨?_, ?_, ?_, ?_⟩
  · exact (index_composition_errors (E := ℕ) 3 [1, 2, 5] c8Comp [] []
      c8Ix []).1.mpr ⟨5, by decide, by decide⟩
  · exact (index_composition_errors (E := ℕ) 3 [] c8Comp [0, 1] [2]
      c8Ix []).2.1.mpr ⟨2, by decide, by decide⟩
  · have h := (index_composition_errors (E := ℕ) 3 [] c8Comp [] []
      c8Ix ([1, 2, 3] : List ℚ)).2.2.2 rfl
    simpa using h
  · exact (index_composition_errors (E := ℕ) 3 [] c8Comp [] []
      c8Ix ([1] : List ℚ)).2.2.1 (by decide)

/-- C9 witness: a constant input column with byte `0x11`, round 3,
`i = 5` (column 40) and untouched column 1. -/
theorem groestl_round_consts_witness :
    addRoundConstant (fun _ _ => 0x11) 3 40 0 = aesAdd 0x11 0x53 ∧
    addRoundConstant (fun _ _ => 0x11) 3 1 0 = 0x11 := by
  have h := groestl_round_consts (fun _ _ => 0x11) 3 5 1 0 (by norm_num)
    (by norm_num) (by norm_num)
  exact ⟨h.2.2, h.2.1⟩

end Witnesses

end Binius
